import Mathlib

/-!
Verification of ponswarp-desktop components against their specification.

Shallow Lean embeddings of:
* `grid/bitfield.rs`  — `Bitfield` (MSB-first bitmap over a byte vector)
* `grid/scheduler.rs` — rare-first `Scheduler` (frequency map, request generation)
* `grid/dht.rs` and `bootstrap/dht.rs` — Kademlia k-buckets and `bucket_index`
* `grid/piece_manager.rs` — piece verification and `write_piece`
* `transfer/multistream.rs` — block send / BACK acknowledgement accounting
* `transfer/zero_copy_io.rs` — `split_file_into_blocks`

Machine integers are modelled as `Nat` with explicit `% 2^w` where the Rust
code performs a truncating cast or can overflow.
-/

namespace Ponswarp

/-! ## Bitfield (`grid/bitfield.rs`)

`bytes` holds the bitmap, MSB-first inside each byte; `length` is the number
of pieces (bits).  Rust's `Vec<u8>` becomes `List Nat` whose elements are
kept below 256 by the operations. -/

structure Bitfield where
  bytes : List Nat
  length : Nat
deriving DecidableEq, Repr

namespace Bitfield

/-- `Bitfield::new(length)`: all-zero bitmap of `⌈length/8⌉` bytes. -/
def new (length : Nat) : Bitfield :=
  { bytes := List.replicate ((length + 7) / 8) 0, length := length }

/-- `Bitfield::full(length)`: all bytes `0xFF`, then the last byte is
overwritten with `0xFF << (8 - remainder)` (truncated to 8 bits) when
`length % 8 > 0`, exactly as the source does. -/
def full (length : Nat) : Bitfield :=
  let byteLen := (length + 7) / 8
  let bytes := List.replicate byteLen 255
  let remainder := length % 8
  let bytes :=
    if remainder > 0 ∧ bytes ≠ [] then
      bytes.set (bytes.length - 1) ((255 <<< (8 - remainder)) % 256)
    else bytes
  { bytes := bytes, length := length }

/-- `Bitfield::has(index)`: `false` out of range, else test bit
`7 - index % 8` of byte `index / 8`. -/
def has (bf : Bitfield) (index : Nat) : Bool :=
  if index ≥ bf.length then false
  else ((bf.bytes.getD (index / 8) 0) >>> (7 - index % 8)) &&& 1 == 1

/-- `Bitfield::set(index, value)`: no-op out of range, else set or clear bit
`7 - index % 8` of byte `index / 8` (`&= !(1 << bit)` on a `u8` is modelled
as masking with the 8-bit complement). -/
def set (bf : Bitfield) (index : Nat) (value : Bool) : Bitfield :=
  if index ≥ bf.length then bf
  else
    let byteIndex := index / 8
    let bitIndex := 7 - index % 8
    let b := bf.bytes.getD byteIndex 0
    let b' := if value then b ||| (1 <<< bitIndex) else b &&& ((1 <<< bitIndex) ^^^ 255)
    { bf with bytes := bf.bytes.set byteIndex b' }

/-- `Bitfield::mark(index)` = `set(index, true)`. -/
def mark (bf : Bitfield) (index : Nat) : Bitfield := bf.set index true

/-- `Bitfield::unmark(index)` = `set(index, false)`. -/
def unmark (bf : Bitfield) (index : Nat) : Bitfield := bf.set index false

/-- `Bitfield::as_bytes`. -/
def as_bytes (bf : Bitfield) : List Nat := bf.bytes

/-- `Bitfield::from_bytes(bytes, length)`: the source asserts
`bytes.len() >= (length + 7) / 8`; assertion failure is modelled as `none`. -/
def from_bytes (bytes : List Nat) (length : Nat) : Option Bitfield :=
  if bytes.length ≥ (length + 7) / 8 then some { bytes := bytes, length := length }
  else none

/-- `Bitfield::count_ones`: loop over `0..length` counting set bits. -/
def count_ones (bf : Bitfield) : Nat :=
  (List.range bf.length).countP (fun i => bf.has i)

/-- `Bitfield::merge(other)`: byte-wise OR (the source asserts equal
lengths; `zipWith` matches it on the equal-length states it is called on). -/
def merge (bf other : Bitfield) : Bitfield :=
  { bf with bytes := List.zipWith (· ||| ·) bf.bytes other.bytes }

/-- Raw bit `j` (0 = MSB of byte 0) of the byte vector, ignoring `length`:
used to state the wire-format part of the spec. -/
def rawBit (bf : Bitfield) (j : Nat) : Nat :=
  ((bf.bytes.getD (j / 8) 0) >>> (7 - j % 8)) &&& 1

end Bitfield

end Ponswarp

namespace Ponswarp

/-! Sanity examples for the Bitfield model (mirroring the Rust unit tests). -/

example : (Bitfield.full 10).count_ones = 10 := by decide
example : (Bitfield.full 10).has 10 = false := by decide
example : ((Bitfield.new 16).set 0 true).has 0 = true := by decide
example : ((Bitfield.new 16).set 0 true).has 1 = false := by decide
example : (Bitfield.full 10).bytes = [255, 192] := by decide
example : ((Bitfield.new 16).mark 8).as_bytes = [0, 128] := by decide

/-- States of a `Bitfield` reachable from `new n` or `full n` by
`set`/`mark`/`unmark`/`merge` (the mutating operations of the source). -/
inductive Reach (n : Nat) : Bitfield → Prop
  | ofNew : Reach n (Bitfield.new n)
  | ofFull : Reach n (Bitfield.full n)
  | ofSet {b : Bitfield} (i : Nat) (v : Bool) : Reach n b → Reach n (b.set i v)
  | ofMark {b : Bitfield} (i : Nat) : Reach n b → Reach n (b.mark i)
  | ofUnmark {b : Bitfield} (i : Nat) : Reach n b → Reach n (b.unmark i)
  | ofMerge {b c : Bitfield} : Reach n b → Reach n c → Reach n (b.merge c)

/-- Every reachable bitfield keeps `length = n` and exactly `⌈n/8⌉` bytes. -/
lemma Reach.wf {n : Nat} {b : Bitfield} (h : Reach n b) :
    b.length = n ∧ b.bytes.length = (n + 7) / 8 := by
  induction h with
  | ofNew => simp [Bitfield.new]
  | ofFull =>
      constructor
      · rfl
      · simp only [Bitfield.full]
        split <;> simp
  | ofSet i v _ ih =>
      obtain ⟨hl, hb⟩ := ih
      simp only [Bitfield.set]
      split
      · exact ⟨hl, hb⟩
      · simpa using ⟨hl, hb⟩
  | ofMark i _ ih =>
      obtain ⟨hl, hb⟩ := ih
      simp only [Bitfield.mark, Bitfield.set]
      split
      · exact ⟨hl, hb⟩
      · simpa using ⟨hl, hb⟩
  | ofUnmark i _ ih =>
      obtain ⟨hl, hb⟩ := ih
      simp only [Bitfield.unmark, Bitfield.set]
      split
      · exact ⟨hl, hb⟩
      · simpa using ⟨hl, hb⟩
  | ofMerge _ _ ih₁ ih₂ =>
      obtain ⟨hl₁, hb₁⟩ := ih₁
      obtain ⟨hl₂, hb₂⟩ := ih₂
      simp [Bitfield.merge, hl₁, hb₁, hb₂]

/-- C8: for every `n` and every bitfield `b` reachable from `new n` or
`full n` by `set`/`mark`/`unmark`/`merge`, `from_bytes (as_bytes b) n`
restores `b` exactly (the source assertion passes and both fields agree). -/
theorem from_bytes_as_bytes_roundtrip {n : Nat} (b : Bitfield) (h : Reach n b) :
    Bitfield.from_bytes b.as_bytes n = some b := by
  obtain ⟨hl, hb⟩ := h.wf
  cases b with
  | mk bytes length =>
      simp only [Bitfield.as_bytes] at *
      simp [Bitfield.from_bytes, hb, hl]

/-- Concrete instantiation of `from_bytes_as_bytes_roundtrip` at a reachable
state of 10 pieces. -/
theorem from_bytes_as_bytes_roundtrip_witness :
    Reach 10 (((Bitfield.new 10).mark 3).merge (Bitfield.full 10)) ∧
      Bitfield.from_bytes (((Bitfield.new 10).mark 3).merge (Bitfield.full 10)).as_bytes 10 =
        some (((Bitfield.new 10).mark 3).merge (Bitfield.full 10)) :=
  ⟨Reach.ofMerge (Reach.ofMark 3 Reach.ofNew) Reach.ofFull,
    from_bytes_as_bytes_roundtrip _ (Reach.ofMerge (Reach.ofMark 3 Reach.ofNew) Reach.ofFull)⟩

/-- C9: out-of-range accesses are safe: `has` is `false`, `set` leaves the
bitfield (hence `count_ones` and the byte representation) unchanged. -/
theorem out_of_range_safe (bf : Bitfield) (i : Nat) (v : Bool) (h : bf.length ≤ i) :
    bf.has i = false ∧ bf.set i v = bf ∧ (bf.set i v).count_ones = bf.count_ones ∧
      (bf.set i v).as_bytes = bf.as_bytes := by
  have hs : bf.set i v = bf := by simp [Bitfield.set, h]
  exact ⟨by simp [Bitfield.has, h], hs, by rw [hs], by rw [hs]⟩

/-- Concrete instantiation of `out_of_range_safe` at length 3, index 5. -/
theorem out_of_range_safe_witness :
    (Bitfield.new 3).length ≤ 5 ∧
      ((Bitfield.new 3).has 5 = false ∧ (Bitfield.new 3).set 5 true = Bitfield.new 3 ∧
        ((Bitfield.new 3).set 5 true).count_ones = (Bitfield.new 3).count_ones ∧
        ((Bitfield.new 3).set 5 true).as_bytes = (Bitfield.new 3).as_bytes) :=
  ⟨by decide, out_of_range_safe (Bitfield.new 3) 5 true (by decide)⟩

/-- Byte-level content of `full n`: every byte is `255` except, when
`n % 8 > 0`, the last byte which is `0xFF << (8 - n % 8)` truncated to 8 bits. -/
lemma full_bytes_getD (n j : Nat) (hj : j < (n + 7) / 8) :
    (Bitfield.full n).bytes.getD j 0 =
      if 0 < n % 8 ∧ j = (n + 7) / 8 - 1 then (255 <<< (8 - n % 8)) % 256 else 255 := by
  have hB : (List.replicate ((n + 7) / 8) (255 : Nat)) ≠ [] := by
    have hlen : 0 < (List.replicate ((n + 7) / 8) (255 : Nat)).length := by
      simp
      omega
    intro hnil
    rw [hnil] at hlen
    simp at hlen
  simp only [Bitfield.full]
  by_cases hr : 0 < n % 8
  · rw [if_pos ⟨hr, hB⟩]
    rw [List.getD_eq_getElem?_getD]
    by_cases hlast : j = (n + 7) / 8 - 1
    · subst hlast
      rw [if_pos ⟨hr, rfl⟩]
      rw [List.length_replicate]
      rw [List.getElem?_set_self (by simp; omega)]
      simp
    · rw [if_neg (by tauto)]
      rw [List.length_replicate]
      rw [List.getElem?_set_ne (by omega)]
      rw [List.getElem?_replicate_of_lt hj]
      simp
  · rw [if_neg (by tauto), if_neg (by omega)]
    rw [List.getD_eq_getElem?_getD, List.getElem?_replicate_of_lt hj]
    simp

/-- Bit extraction from the byte `255`: every position is set. -/
lemma byte_255_bit : ∀ m < 8, ((255 : Nat) >>> (7 - m)) &&& 1 = 1 := by decide

/-- Bit extraction from the truncated last byte of `full`: position `m`
(MSB-first) is set iff `m < r`. -/
lemma last_byte_bit : ∀ r < 8, ∀ m < 8, 0 < r →
    ((((255 : Nat) <<< (8 - r)) % 256) >>> (7 - m)) &&& 1 = (if m < r then 1 else 0) := by
  decide

/-- C6: `full n` has every bit `i < n` set (`has i = true`, raw MSB-first bit
at byte `i/8`, position `7 - i%8` equal to 1) and every padding bit past
`n - 1` in the byte vector clear. -/
theorem full_first_n_set_padding_zero (n i : Nat) :
    (i < n → (Bitfield.full n).has i = true ∧ (Bitfield.full n).rawBit i = 1) ∧
    (n ≤ i → i < 8 * ((n + 7) / 8) → (Bitfield.full n).rawBit i = 0) := by
  constructor
  · intro hi
    have hj : i / 8 < (n + 7) / 8 := by omega
    have hbyte := full_bytes_getD n (i / 8) hj
    have hraw : (Bitfield.full n).rawBit i = 1 := by
      rw [Bitfield.rawBit, hbyte]
      by_cases hcase : 0 < n % 8 ∧ i / 8 = (n + 7) / 8 - 1
      · rw [if_pos hcase]
        have hm : i % 8 < n % 8 := by omega
        have := last_byte_bit (n % 8) (by omega) (i % 8) (by omega) hcase.1
        rw [this, if_pos hm]
      · rw [if_neg hcase]
        exact byte_255_bit (i % 8) (by omega)
    refine ⟨?_, hraw⟩
    have hlen : ¬ i ≥ (Bitfield.full n).length := by
      simp only [Bitfield.full]
      omega
    simp only [Bitfield.has, if_neg hlen]
    rw [Bitfield.rawBit] at hraw
    rw [hraw]
    rfl
  · intro hn hi
    have hj : i / 8 < (n + 7) / 8 := by omega
    have hbyte := full_bytes_getD n (i / 8) hj
    have hr : 0 < n % 8 := by omega
    have hlast : i / 8 = (n + 7) / 8 - 1 := by omega
    rw [Bitfield.rawBit, hbyte, if_pos ⟨hr, hlast⟩]
    have hm : ¬ i % 8 < n % 8 := by omega
    have := last_byte_bit (n % 8) (by omega) (i % 8) (by omega) hr
    rw [this, if_neg hm]

/-- Concrete instantiation of `full_first_n_set_padding_zero` at `n = 10`:
bit 3 is set and padding bit 13 is clear. -/
theorem full_first_n_set_padding_zero_witness :
    ((3 < 10 → (Bitfield.full 10).has 3 = true ∧ (Bitfield.full 10).rawBit 3 = 1) ∧
      (10 ≤ 3 → 3 < 8 * ((10 + 7) / 8) → (Bitfield.full 10).rawBit 3 = 0)) ∧
    (10 ≤ 13 ∧ 13 < 8 * ((10 + 7) / 8) ∧ (Bitfield.full 10).rawBit 13 = 0) :=
  ⟨full_first_n_set_padding_zero 10 3,
    ⟨by decide, by decide, (full_first_n_set_padding_zero 10 13).2 (by decide) (by decide)⟩⟩

/-! ## Rare-first scheduler (`grid/scheduler.rs`)

`HashSet<usize>` is modelled as a duplicate-free `List Nat` (insertion
order), `HashMap<PeerId, HashSet<usize>>` as an association list whose entry
order stands for the map's iteration order.  Rust's stable `sort_by` /
`sort_by_key` is modelled by a stable insertion sort (same observable
result: a stable, sorted permutation).  `rand::seq::SliceRandom::choose`
becomes an explicit oracle `pick : List Nat → Option Nat`. -/

inductive ScheduleMode
  | RandomFirst
  | RareFirst
  | Endgame
deriving DecidableEq, Repr

structure PieceRequest where
  piece_index : Nat
  target_peer : String
  priority : Nat
deriving DecidableEq, Repr

structure Scheduler where
  total_pieces : Nat
  piece_frequency : List Nat
  my_pieces : List Nat
  pending_pieces : List Nat
  peer_pieces : List (String × List Nat)
  mode : ScheduleMode
  endgame_threshold : Nat
deriving DecidableEq, Repr

/-- `HashSet::insert`: membership-preserving, duplicate-free insert. -/
def insertOnce (l : List Nat) (x : Nat) : List Nat :=
  if x ∈ l then l else l ++ [x]

/-- Stable insertion of `x`: before the first element not strictly below it. -/
def insertStable {α : Type} (lt : α → α → Bool) (x : α) : List α → List α
  | [] => [x]
  | y :: ys => if lt y x then y :: insertStable lt x ys else x :: y :: ys

/-- Stable insertion sort (model of Rust's stable `sort_by` family). -/
def sortStable {α : Type} (lt : α → α → Bool) : List α → List α
  | [] => []
  | x :: xs => insertStable lt x (sortStable lt xs)

lemma mem_insertStable {α : Type} (lt : α → α → Bool) (x a : α) (l : List α) :
    a ∈ insertStable lt x l ↔ a = x ∨ a ∈ l := by
  induction l with
  | nil => simp [insertStable]
  | cons y ys ih =>
      simp only [insertStable]
      split
      · simp only [List.mem_cons, ih]
        tauto
      · simp only [List.mem_cons]

lemma mem_sortStable {α : Type} (lt : α → α → Bool) (a : α) (l : List α) :
    a ∈ sortStable lt l ↔ a ∈ l := by
  induction l with
  | nil => simp [sortStable]
  | cons x xs ih =>
      simp [sortStable, mem_insertStable, ih]

namespace Scheduler

/-- `Scheduler::new(total_pieces)`. -/
def new (total_pieces : Nat) : Scheduler :=
  { total_pieces := total_pieces
    piece_frequency := List.replicate total_pieces 0
    my_pieces := []
    pending_pieces := []
    peer_pieces := []
    mode := .RandomFirst
    endgame_threshold := 10 }

/-- Subtract 1 (saturating, as `usize::saturating_sub`; `Nat` subtraction is
saturating) from the frequency of every in-range index of `idxs`. -/
def decFrequency (total : Nat) : List Nat → List Nat → List Nat
  | freq, [] => freq
  | freq, idx :: rest =>
      decFrequency total
        (if idx < total then freq.set idx (freq.getD idx 0 - 1) else freq) rest

/-- The second loop of `set_peer_bitfield`: for each in-range index bump its
frequency and insert it into the peer's fresh piece set. -/
def addPieces (total : Nat) : List Nat × List Nat → List Nat → List Nat × List Nat
  | acc, [] => acc
  | (freq, newPieces), idx :: rest =>
      if idx < total then
        addPieces total (freq.set idx (freq.getD idx 0 + 1), insertOnce newPieces idx) rest
      else
        addPieces total (freq, newPieces) rest

/-- `HashMap::get` on the association list. -/
def lookupPeer (m : List (String × List Nat)) (k : String) : Option (List Nat) :=
  (m.find? (fun p => p.1 == k)).map Prod.snd

/-- `HashMap::remove` on the association list. -/
def removePeerEntry (m : List (String × List Nat)) (k : String) :
    List (String × List Nat) :=
  m.filter (fun p => p.1 != k)

/-- `entry(peer).or_insert_with(HashSet::new).insert(idx)`. -/
def insertPieceForPeer : List (String × List Nat) → String → Nat → List (String × List Nat)
  | [], peer, idx => [(peer, [idx])]
  | (k, v) :: rest, peer, idx =>
      if k = peer then (k, insertOnce v idx) :: rest
      else (k, v) :: insertPieceForPeer rest peer idx

/-- `Scheduler::update_mode`. -/
def update_mode (s : Scheduler) : Scheduler :=
  let remaining := s.total_pieces - s.my_pieces.length
  { s with mode :=
      if s.my_pieces.isEmpty then .RandomFirst
      else if remaining ≤ s.endgame_threshold then .Endgame
      else .RareFirst }

/-- `Scheduler::set_peer_bitfield`. -/
def set_peer_bitfield (s : Scheduler) (peer_id : String) (piece_indices : List Nat) :
    Scheduler :=
  let s' :=
    match lookupPeer s.peer_pieces peer_id with
    | some oldPieces =>
        { s with piece_frequency := decFrequency s.total_pieces s.piece_frequency oldPieces
                 peer_pieces := removePeerEntry s.peer_pieces peer_id }
    | none => s
  let fp := addPieces s'.total_pieces (s'.piece_frequency, []) piece_indices
  update_mode { s' with piece_frequency := fp.1
                        peer_pieces := s'.peer_pieces ++ [(peer_id, fp.2)] }

/-- `Scheduler::peer_has_piece`: note the unconditional frequency increment
before the (deduplicating) set insert. -/
def peer_has_piece (s : Scheduler) (peer_id : String) (piece_index : Nat) : Scheduler :=
  if piece_index ≥ s.total_pieces then s
  else
    update_mode
      { s with
          piece_frequency :=
            s.piece_frequency.set piece_index (s.piece_frequency.getD piece_index 0 + 1)
          peer_pieces := insertPieceForPeer s.peer_pieces peer_id piece_index }

/-- `Scheduler::remove_peer`. -/
def remove_peer (s : Scheduler) (peer_id : String) : Scheduler :=
  update_mode <|
    match lookupPeer s.peer_pieces peer_id with
    | some pieces =>
        { s with piece_frequency := decFrequency s.total_pieces s.piece_frequency pieces
                 peer_pieces := removePeerEntry s.peer_pieces peer_id }
    | none => s

/-- `Scheduler::mark_completed`. -/
def mark_completed (s : Scheduler) (index : Nat) : Scheduler :=
  update_mode
    { s with my_pieces := insertOnce s.my_pieces index
             pending_pieces := s.pending_pieces.filter (· != index) }

/-- `Scheduler::mark_pending`. -/
def mark_pending (s : Scheduler) (index : Nat) : Scheduler :=
  { s with pending_pieces := insertOnce s.pending_pieces index }

/-- `Scheduler::unmark_pending`. -/
def unmark_pending (s : Scheduler) (index : Nat) : Scheduler :=
  { s with pending_pieces := s.pending_pieces.filter (· != index) }

/-- `Scheduler::select_rarest` with the random choice among the up-to-10
rarest candidates abstracted into `pick`. -/
def select_rarest (s : Scheduler) (pick : List Nat → Option Nat)
    (candidates : List Nat) : Option Nat :=
  if candidates.isEmpty then none
  else
    let sorted := sortStable (fun a b => a.2 < b.2)
      (candidates.map (fun idx => (idx, s.piece_frequency.getD idx 0)))
    let range := min sorted.length 10
    pick ((sorted.take range).map Prod.fst)

/-- The per-peer loop of `Scheduler::generate_requests`. -/
def genLoop (s : Scheduler) (pick : List Nat → Option Nat) (max_requests : Nat) :
    List (String × List Nat) → List PieceRequest → List Nat → List PieceRequest
  | [], requests, _ => requests
  | (peer_id, peerPieces) :: rest, requests, used =>
      if requests.length ≥ max_requests then requests
      else
        let candidates := peerPieces.filter (fun idx =>
          !s.my_pieces.contains idx && !s.pending_pieces.contains idx && !used.contains idx)
        match select_rarest s pick candidates with
        | some piece_idx =>
            let priority :=
              if s.piece_frequency.getD piece_idx 0 = 1 then 100
              else 100 - min (s.piece_frequency.getD piece_idx 0) 99
            genLoop s pick max_requests rest
              (requests ++ [{ piece_index := piece_idx, target_peer := peer_id,
                              priority := priority }])
              (insertOnce used piece_idx)
        | none => genLoop s pick max_requests rest requests used

/-- `Scheduler::generate_requests`, finishing with the descending stable
sort by priority. -/
def generate_requests (s : Scheduler) (pick : List Nat → Option Nat)
    (max_requests : Nat) : List PieceRequest :=
  sortStable (fun a b => b.priority < a.priority)
    (genLoop s pick max_requests s.peer_pieces [] [])

/-- Number of currently-known peers whose recorded piece set contains `i`. -/
def peersHaving (s : Scheduler) (i : Nat) : Nat :=
  (s.peer_pieces.filter (fun p => p.2.contains i)).length

end Scheduler

/-! Sanity examples mirroring the Rust scheduler unit tests. -/

example :
    (((Scheduler.new 10).set_peer_bitfield "peer1" [0, 1, 2, 3, 4]).set_peer_bitfield
      "peer2" [5, 6, 7, 8, 9]).piece_frequency.getD 0 0 = 1 := by decide

example :
    (((Scheduler.new 10).set_peer_bitfield "peer1"
        [0, 1, 2, 3, 4, 5, 6, 7, 8, 9]).set_peer_bitfield
      "peer2" [0]).piece_frequency.getD 0 0 = 2 := by decide

/-- C1: `peer_has_piece` increments `piece_frequency` unconditionally while
the peer's `HashSet` deduplicates, so a repeated Have for the same
(peer, piece) pair leaves `piece_frequency[0] = 2` although exactly one
known peer records piece 0 — the frequency-consistency invariant fails. -/
theorem peer_has_piece_double_count_bug :
    (((Scheduler.new 1).peer_has_piece "p" 0).peer_has_piece "p" 0).piece_frequency.getD 0 0
        = 2 ∧
      (((Scheduler.new 1).peer_has_piece "p" 0).peer_has_piece "p" 0).peersHaving 0 = 1 := by
  decide

/-- Every request appended by the per-peer loop of `generate_requests`
carries the priority computed from its own piece's current frequency. -/
lemma genLoop_priority (s : Scheduler) (pick : List Nat → Option Nat) (k : Nat)
    (peers : List (String × List Nat)) :
    ∀ reqs used,
      (∀ r ∈ reqs,
        r.priority = if s.piece_frequency.getD r.piece_index 0 = 1 then 100
          else 100 - min (s.piece_frequency.getD r.piece_index 0) 99) →
      ∀ r ∈ Scheduler.genLoop s pick k peers reqs used,
        r.priority = if s.piece_frequency.getD r.piece_index 0 = 1 then 100
          else 100 - min (s.piece_frequency.getD r.piece_index 0) 99 := by
  induction peers with
  | nil =>
      intro reqs used h r hr
      simp only [Scheduler.genLoop] at hr
      exact h r hr
  | cons p rest ih =>
      obtain ⟨peer_id, pieces⟩ := p
      intro reqs used h r hr
      simp only [Scheduler.genLoop] at hr
      split at hr
      · exact h r hr
      · split at hr
        · refine ih _ _ ?_ r hr
          intro q hq
          rcases List.mem_append.mp hq with hq | hq
          · exact h q hq
          · simp only [List.mem_singleton] at hq
            subst hq
            rfl
        · exact ih _ _ h r hr

/-- C3 (amended): every request returned by `generate_requests` has priority
100 when the chosen piece's current frequency is 1, and `100 − min(freq, 99)`
otherwise — for every scheduler state, every choice oracle and every `k`. -/
theorem generate_requests_priority (s : Scheduler) (pick : List Nat → Option Nat)
    (k : Nat) (r : PieceRequest) (hr : r ∈ s.generate_requests pick k) :
    r.priority = if s.piece_frequency.getD r.piece_index 0 = 1 then 100
      else 100 - min (s.piece_frequency.getD r.piece_index 0) 99 := by
  rw [Scheduler.generate_requests] at hr
  exact genLoop_priority s pick k s.peer_pieces [] [] (by simp) r
    ((mem_sortStable _ r _).mp hr)

/-- Concrete instantiation of `generate_requests_priority`: one peer holding
only piece 0 (frequency 1); the single generated request has priority 100. -/
theorem generate_requests_priority_witness :
    ({ piece_index := 0, target_peer := "p", priority := 100 } : PieceRequest) ∈
        ((Scheduler.new 2).set_peer_bitfield "p" [0]).generate_requests List.head? 5 ∧
      ({ piece_index := 0, target_peer := "p", priority := 100 } : PieceRequest).priority =
        if ((Scheduler.new 2).set_peer_bitfield "p" [0]).piece_frequency.getD 0 0 = 1 then 100
        else 100 -
          min (((Scheduler.new 2).set_peer_bitfield "p" [0]).piece_frequency.getD 0 0) 99 :=
  ⟨by decide, generate_requests_priority _ List.head? 5 _ (by decide)⟩

/-- C3 as literally stated is false: with a single peer holding only piece 0
the candidate list is a singleton, so *any* choice (`choose` on a one-element
slice must return that element, modelled by `List.head?`) yields the request
`(0, "p")` with priority 100, while `100 − min(freq, 99) = 99` at
frequency 1. -/
theorem generate_requests_priority_counterexample :
    ((Scheduler.new 2).set_peer_bitfield "p" [0]).generate_requests List.head? 5 =
        [{ piece_index := 0, target_peer := "p", priority := 100 }] ∧
      ((Scheduler.new 2).set_peer_bitfield "p" [0]).piece_frequency.getD 0 0 = 1 ∧
      (100 : Nat) ≠
        100 - min (((Scheduler.new 2).set_peer_bitfield "p" [0]).piece_frequency.getD 0 0) 99 := by
  decide

/-! ## Kademlia DHT (`grid/dht.rs`, `bootstrap/dht.rs`)

Node ids (`[u8; 32]`) become byte lists (elements below 256). -/

/-- `xor_distance`: bytewise XOR. -/
def xor_distance (a b : List Nat) : List Nat :=
  List.zipWith (fun x y => x ^^^ y) a b

/-- `u8::leading_zeros` for a byte value (tabulated by halving thresholds). -/
def u8LeadingZeros (b : Nat) : Nat :=
  if 128 ≤ b then 0 else if 64 ≤ b then 1 else if 32 ≤ b then 2 else if 16 ≤ b then 3
  else if 8 ≤ b then 4 else if 4 ≤ b then 5 else if 2 ≤ b then 6 else if 1 ≤ b then 7
  else 8

/-- The `enumerate` loop of `bucket_index`, carrying the byte position `i`:
first non-zero byte wins with `i * 8 + leading_zeros`, all-zero gives 255. -/
def bucketIndexFrom : Nat → List Nat → Nat
  | _, [] => 255
  | i, b :: rest => if b ≠ 0 then i * 8 + u8LeadingZeros b else bucketIndexFrom (i + 1) rest

/-- `bucket_index(local, remote)` — identical in `grid/dht.rs` and
`bootstrap/dht.rs` (`DhtNode::bucket_index`). -/
def bucket_index (localId remote : List Nat) : Nat :=
  bucketIndexFrom 0 (xor_distance localId remote)

/-- MSB-first bit `j` of a byte string: bit `7 - j % 8` of byte `j / 8`. -/
def idBit (d : List Nat) (j : Nat) : Nat :=
  ((d.getD (j / 8) 0) >>> (7 - j % 8)) &&& 1

/-- The spec's words: `k` is the zero-based position (0 = most significant)
of the highest-order set bit of the byte string `d`. -/
def isHighestSetBitPos (d : List Nat) (k : Nat) : Prop :=
  idBit d k = 1 ∧ ∀ j < k, idBit d j = 0

set_option maxRecDepth 4000 in
/-- For a non-zero byte, `u8LeadingZeros` points at its highest set bit
(MSB-first) and all earlier positions are clear. -/
lemma u8LeadingZeros_spec : ∀ v < 256, 0 < v →
    u8LeadingZeros v < 8 ∧ (v >>> (7 - u8LeadingZeros v)) &&& 1 = 1 ∧
      ∀ m < u8LeadingZeros v, (v >>> (7 - m)) &&& 1 = 0 := by
  decide

/-- Decomposition of `idBit` over a cons cell. -/
lemma idBit_cons (v : Nat) (rest : List Nat) (j : Nat) :
    idBit (v :: rest) j =
      if j < 8 then (v >>> (7 - j % 8)) &&& 1 else idBit rest (j - 8) := by
  by_cases hj : j < 8
  · rw [if_pos hj]
    have h0 : j / 8 = 0 := by omega
    simp [idBit, h0]
  · rw [if_neg hj]
    have h1 : j / 8 = (j - 8) / 8 + 1 := by omega
    have h2 : j % 8 = (j - 8) % 8 := by omega
    simp [idBit, h1, h2]

/-- Shifting the byte counter of the `enumerate` loop. -/
lemma bucketIndexFrom_shift (d : List Nat) :
    ∀ i : Nat, (∃ v ∈ d, v ≠ 0) →
      bucketIndexFrom i d = 8 * i + bucketIndexFrom 0 d := by
  induction d with
  | nil => intro i h; simp at h
  | cons v rest ih =>
      intro i h
      by_cases hv : v = 0
      · subst hv
        have hrest : ∃ w ∈ rest, w ≠ 0 := by
          rcases h with ⟨w, hw, hwne⟩
          rcases List.mem_cons.mp hw with rfl | hw'
          · exact absurd rfl hwne
          · exact ⟨w, hw', hwne⟩
        have e1 : ∀ j : Nat, bucketIndexFrom j (0 :: rest) = bucketIndexFrom (j + 1) rest := by
          intro j
          simp [bucketIndexFrom]
        rw [e1 i, e1 0, ih (i + 1) hrest, ih 1 hrest]
        ring
      · have e1 : ∀ j : Nat, bucketIndexFrom j (v :: rest) = j * 8 + u8LeadingZeros v := by
          intro j
          simp [bucketIndexFrom, hv]
        rw [e1 i, e1 0]
        ring

/-- The loop finds the highest-order set bit of any byte string with a
non-zero byte. -/
lemma bucketIndexFrom_spec (d : List Nat) (hd : ∀ x ∈ d, x < 256)
    (hnz : ∃ v ∈ d, v ≠ 0) : isHighestSetBitPos d (bucketIndexFrom 0 d) := by
  induction d with
  | nil => simp at hnz
  | cons v rest ih =>
      by_cases hv : v ≠ 0
      · have hvlt : v < 256 := hd v (by simp)
        obtain ⟨hlt, hset, hclear⟩ :=
          u8LeadingZeros_spec v hvlt (Nat.pos_of_ne_zero hv)
        have hk : bucketIndexFrom 0 (v :: rest) = u8LeadingZeros v := by
          simp [bucketIndexFrom, hv]
        rw [hk]
        constructor
        · rw [idBit_cons, if_pos hlt]
          have : u8LeadingZeros v % 8 = u8LeadingZeros v := by omega
          rw [this]
          exact hset
        · intro j hj
          rw [idBit_cons, if_pos (by omega)]
          have : j % 8 = j := by omega
          rw [this]
          exact hclear j hj
      · have hv0 : v = 0 := by omega
        subst hv0
        have hrest : ∃ w ∈ rest, w ≠ 0 := by
          rcases hnz with ⟨w, hw, hwne⟩
          rcases List.mem_cons.mp hw with rfl | hw'
          · exact absurd rfl hwne
          · exact ⟨w, hw', hwne⟩
        have hdrest : ∀ x ∈ rest, x < 256 := fun x hx => hd x (by simp [hx])
        obtain ⟨hset, hclear⟩ := ih hdrest hrest
        have hk : bucketIndexFrom 0 (0 :: rest) = 8 + bucketIndexFrom 0 rest := by
          have e1 : bucketIndexFrom 0 (0 :: rest) = bucketIndexFrom 1 rest := by
            simp [bucketIndexFrom]
          rw [e1, bucketIndexFrom_shift rest 1 hrest]
        rw [hk]
        constructor
        · rw [idBit_cons, if_neg (by omega)]
          have : 8 + bucketIndexFrom 0 rest - 8 = bucketIndexFrom 0 rest := by omega
          rw [this]
          exact hset
        · intro j hj
          rw [idBit_cons]
          by_cases hj8 : j < 8
          · rw [if_pos hj8]
            simp
          · rw [if_neg hj8]
            exact hclear (j - 8) (by omega)

/-- XOR of byte strings stays below 256 elementwise. -/
lemma xor_distance_bytes_lt (a : List Nat) :
    ∀ b : List Nat, (∀ x ∈ a, x < 256) → (∀ y ∈ b, y < 256) →
      ∀ z ∈ xor_distance a b, z < 256 := by
  induction a with
  | nil => intro b _ _ z hz; simp [xor_distance] at hz
  | cons x xs ih =>
      intro b ha hb z hz
      cases b with
      | nil => simp [xor_distance] at hz
      | cons y ys =>
          simp only [xor_distance, List.zipWith_cons_cons, List.mem_cons] at hz
          rcases hz with rfl | hz
          · exact Nat.xor_lt_two_pow (n := 8) (ha x (by simp)) (hb y (by simp))
          · exact ih ys (fun u hu => ha u (by simp [hu]))
              (fun u hu => hb u (by simp [hu])) z hz

/-- Distinct equal-length byte strings have a non-zero XOR byte. -/
lemma xor_distance_ne_zero (a : List Nat) :
    ∀ b : List Nat, a.length = b.length → a ≠ b →
      ∃ v ∈ xor_distance a b, v ≠ 0 := by
  induction a with
  | nil =>
      intro b hlen hne
      cases b with
      | nil => exact absurd rfl hne
      | cons y ys => simp at hlen
  | cons x xs ih =>
      intro b hlen hne
      cases b with
      | nil => simp at hlen
      | cons y ys =>
          by_cases hxy : x = y
          · subst hxy
            have hne' : xs ≠ ys := by
              intro h
              exact hne (by rw [h])
            obtain ⟨v, hv, hvne⟩ := ih ys (by simpa using hlen) hne'
            refine ⟨v, ?_, hvne⟩
            simp only [xor_distance, List.zipWith_cons_cons, List.mem_cons]
            exact Or.inr hv
          · refine ⟨x ^^^ y, by simp [xor_distance], ?_⟩
            intro h0
            apply hxy
            have : (x ^^^ y) ^^^ y = 0 ^^^ y := by rw [h0]
            rwa [Nat.xor_assoc, Nat.xor_self, Nat.xor_zero, Nat.zero_xor] at this

/-- C5: for 256-bit ids (length-32 byte strings) with `other ≠ self`,
`bucket_index` is exactly the zero-based position (0 = most significant bit)
of the highest-order set bit of the bytewise XOR of the two ids. -/
theorem bucket_index_highest_set_bit (a b : List Nat)
    (ha : ∀ x ∈ a, x < 256) (hb : ∀ y ∈ b, y < 256)
    (hla : a.length = 32) (hlb : b.length = 32) (hne : a ≠ b) :
    isHighestSetBitPos (xor_distance a b) (bucket_index a b) :=
  bucketIndexFrom_spec (xor_distance a b)
    (xor_distance_bytes_lt a b ha hb)
    (xor_distance_ne_zero a b (by rw [hla, hlb]) hne)

/-- `RoutingEntry` of `grid/dht.rs` (time as an abstract tick counter). -/
structure RoutingEntry where
  node_id : List Nat
  addr : Nat
  last_seen : Nat
  rtt_ms : Option Nat
deriving DecidableEq, Repr

/-- `KBucket` of `grid/dht.rs`. -/
structure KBucket where
  entries : List RoutingEntry
  capacity : Nat
deriving DecidableEq, Repr

/-- `last_seen` of the `j`-th entry. -/
def lastSeenD (l : List RoutingEntry) (j : Nat) : Nat :=
  (l.map (fun e => e.last_seen)).getD j 0

/-- `iter_mut().find(..)` followed by the in-place update of `last_seen`
and `addr`: only the first entry with the matching id is touched. -/
def updateFirst : List RoutingEntry → RoutingEntry → List RoutingEntry
  | [], _ => []
  | e :: rest, entry =>
      if e.node_id = entry.node_id then
        { e with last_seen := entry.last_seen, addr := entry.addr } :: rest
      else e :: updateFirst rest entry

/-- The running state of `min_by_key(|e| e.last_seen)`: current best value,
its index, and the index of the next element (later elements win only when
strictly smaller, so the first minimum is kept). -/
def argminAux : Nat → Nat → Nat → List RoutingEntry → Nat × Nat
  | bestVal, bestIdx, _, [] => (bestIdx, bestVal)
  | bestVal, bestIdx, i, e :: rest =>
      if e.last_seen < bestVal then argminAux e.last_seen i (i + 1) rest
      else argminAux bestVal bestIdx (i + 1) rest

/-- `min_by_key(|e| e.last_seen)` returning (index, value); `none` on an
empty list. -/
def argminLastSeen : List RoutingEntry → Option (Nat × Nat)
  | [] => none
  | e :: rest => some (argminAux e.last_seen 0 1 rest)

namespace KBucket

/-- `KBucket::new(capacity)`. -/
def new (capacity : Nat) : KBucket := { entries := [], capacity := capacity }

/-- `KBucket::add`, with the current time `now` made explicit
(`oldest.last_seen.elapsed()` becomes `now - oldest.last_seen`).  Returns
the updated bucket and the `bool` result. -/
def add (bk : KBucket) (now : Nat) (entry : RoutingEntry) : KBucket × Bool :=
  if bk.entries.any (fun e => e.node_id == entry.node_id) then
    ({ bk with entries := updateFirst bk.entries entry }, true)
  else if bk.entries.length < bk.capacity then
    ({ bk with entries := bk.entries ++ [entry] }, true)
  else
    match argminLastSeen bk.entries with
    | some iv =>
        if 300 < now - iv.2 then
          ({ bk with entries := bk.entries.set iv.1 entry }, true)
        else (bk, false)
    | none => (bk, false)

end KBucket

/-- Routing entry of `bootstrap/dht.rs` (`{node_id, addr, last_seen}`). -/
structure BootstrapEntry where
  node_id : List Nat
  addr : Nat
  last_seen : Nat
deriving DecidableEq, Repr

/-- First-match refresh of an existing bootstrap routing entry. -/
def bootstrapUpdateFirst : List BootstrapEntry → List Nat → Nat → Nat → List BootstrapEntry
  | [], _, _, _ => []
  | e :: rest, nid, addr, now =>
      if e.node_id = nid then { e with last_seen := now, addr := addr } :: rest
      else e :: bootstrapUpdateFirst rest nid addr now

/-- The per-bucket behaviour of `DhtNode::add_node` in `bootstrap/dht.rs`:
refresh an existing entry, push while fewer than 20 entries, otherwise do
nothing (the new node is dropped unconditionally). -/
def bootstrapAddNode (bucket : List BootstrapEntry) (now : Nat) (nid : List Nat)
    (addr : Nat) : List BootstrapEntry :=
  if bucket.any (fun e => e.node_id == nid) then
    bootstrapUpdateFirst bucket nid addr now
  else if bucket.length < 20 then
    bucket ++ [{ node_id := nid, addr := addr, last_seen := now }]
  else bucket

/-- The spec's words: `i` is the position of the least-recently-seen entry
(minimal `last_seen`, earliest on ties) and `v` its `last_seen` value. -/
def isFirstMinLastSeen (l : List RoutingEntry) (i v : Nat) : Prop :=
  i < l.length ∧ lastSeenD l i = v ∧ (∀ j < l.length, v ≤ lastSeenD l j) ∧
    ∀ j < i, v < lastSeenD l j

/-- Combination step of the reference first-minimum: a new head wins unless
the tail's minimum is strictly smaller. -/
def firstMinCons (e : RoutingEntry) : Option (Nat × Nat) → Nat × Nat
  | none => (0, e.last_seen)
  | some jv => if jv.2 < e.last_seen then (jv.1 + 1, jv.2) else (0, e.last_seen)

/-- Reference first-minimum computation, structurally recursive: index and
value of the earliest entry with minimal `last_seen`. -/
def firstMinPair : List RoutingEntry → Option (Nat × Nat)
  | [] => none
  | e :: rest => some (firstMinCons e (firstMinPair rest))

/-- Resolution of the accumulator against an already-computed suffix
minimum. -/
def argminOfBest (bestVal bestIdx i : Nat) : Option (Nat × Nat) → Nat × Nat
  | none => (bestIdx, bestVal)
  | some jv => if jv.2 < bestVal then (i + jv.1, jv.2) else (bestIdx, bestVal)

/-- The accumulator loop agrees with the reference first-minimum. -/
lemma argminAux_eq (rest : List RoutingEntry) : ∀ bestVal bestIdx i : Nat,
    argminAux bestVal bestIdx i rest = argminOfBest bestVal bestIdx i (firstMinPair rest) := by
  induction rest with
  | nil => intro bv bi i; rfl
  | cons e rest ih =>
      intro bv bi i
      simp only [argminAux, firstMinPair, ih]
      cases hfm : firstMinPair rest with
      | none =>
          simp only [firstMinCons, argminOfBest]
          by_cases he : e.last_seen < bv
          · simp [he]
          · simp [he]
      | some kv =>
          obtain ⟨k, v⟩ := kv
          simp only [firstMinCons, argminOfBest]
          split_ifs <;>
            first
              | rfl
              | omega
              | (simp_all only [Prod.mk.injEq]
                 omega)
              | (simp_all
                 omega)

/-- `min_by_key` equals the reference first-minimum. -/
lemma argminLastSeen_eq (l : List RoutingEntry) :
    argminLastSeen l = firstMinPair l := by
  cases l with
  | nil => rfl
  | cons e rest =>
      simp only [argminLastSeen, argminAux_eq, firstMinPair]
      cases hfm : firstMinPair rest with
      | none => simp [firstMinCons, argminOfBest]
      | some jv =>
          obtain ⟨k, v⟩ := jv
          simp only [firstMinCons, argminOfBest]
          split_ifs <;>
            first
              | rfl
              | omega
              | (simp_all only [Option.some.injEq, Prod.mk.injEq]
                 omega)
              | (simp_all
                 omega)

/-- The reference first-minimum satisfies the first-minimum property. -/
lemma firstMinPair_spec (l : List RoutingEntry) :
    ∀ jv, firstMinPair l = some jv → isFirstMinLastSeen l jv.1 jv.2 := by
  induction l with
  | nil => intro jv h; simp [firstMinPair] at h
  | cons e rest ih =>
      intro jv h
      simp only [firstMinPair, Option.some.injEq] at h
      cases hfm : firstMinPair rest with
      | none =>
          rw [hfm] at h
          simp only [firstMinCons] at h
          cases rest with
          | cons f tail => simp [firstMinPair] at hfm
          | nil =>
              subst h
              refine ⟨by simp, rfl, ?_, by omega⟩
              intro j hj
              simp only [List.length_cons, List.length_nil] at hj
              have hj0 : j = 0 := by omega
              subst hj0
              exact Nat.le_refl _
      | some kv =>
          obtain ⟨hlt, hval, hmin, hfirst⟩ := ih kv hfm
          rw [hfm] at h
          simp only [firstMinCons] at h
          by_cases hc : kv.2 < e.last_seen
          · rw [if_pos hc] at h
            subst h
            refine ⟨by simpa using hlt, ?_, ?_, ?_⟩
            · simpa [lastSeenD] using hval
            · intro j hj
              cases j with
              | zero => exact le_of_lt hc
              | succ k => exact hmin k (by simpa using hj)
            · intro j hj
              cases j with
              | zero => exact hc
              | succ k => exact hfirst k (by omega)
          · rw [if_neg hc] at h
            subst h
            refine ⟨by simp, rfl, ?_, by omega⟩
            intro j hj
            cases j with
            | zero => exact Nat.le_refl _
            | succ k =>
                have hk := hmin k (by simpa using hj)
                have : lastSeenD (e :: rest) (k + 1) = lastSeenD rest k := rfl
                rw [this]
                omega

/-- Concrete instantiation of `bucket_index_highest_set_bit`: ids differing
only in the last bit; the bucket index is 255. -/
theorem bucket_index_highest_set_bit_witness :
    ((∀ x ∈ List.replicate 31 (0 : Nat) ++ [1], x < 256) ∧
      (∀ y ∈ List.replicate 32 (0 : Nat), y < 256) ∧
      (List.replicate 31 (0 : Nat) ++ [1]).length = 32 ∧
      (List.replicate 32 (0 : Nat)).length = 32 ∧
      List.replicate 31 (0 : Nat) ++ [1] ≠ List.replicate 32 (0 : Nat)) ∧
    isHighestSetBitPos
      (xor_distance (List.replicate 31 (0 : Nat) ++ [1]) (List.replicate 32 (0 : Nat)))
      (bucket_index (List.replicate 31 (0 : Nat) ++ [1]) (List.replicate 32 (0 : Nat))) :=
  ⟨⟨by decide, by decide, by decide, by decide, by decide⟩,
    bucket_index_highest_set_bit _ _ (by decide) (by decide) (by decide) (by decide)
      (by decide)⟩

lemma length_updateFirst (entry : RoutingEntry) :
    ∀ l : List RoutingEntry, (updateFirst l entry).length = l.length := by
  intro l
  induction l with
  | nil => rfl
  | cons e rest ih =>
      simp only [updateFirst]
      split
      · rfl
      · simpa using ih

lemma length_bootstrapUpdateFirst (nid : List Nat) (addr now : Nat) :
    ∀ l : List BootstrapEntry, (bootstrapUpdateFirst l nid addr now).length = l.length := by
  intro l
  induction l with
  | nil => rfl
  | cons e rest ih =>
      simp only [bootstrapUpdateFirst]
      split
      · rfl
      · simpa using ih

/-- One `KBucket::add` keeps the capacity field and the length bound. -/
lemma add_invariant (bk : KBucket) (now : Nat) (e : RoutingEntry)
    (h : bk.entries.length ≤ bk.capacity) :
    (bk.add now e).1.capacity = bk.capacity ∧
      (bk.add now e).1.entries.length ≤ bk.capacity := by
  simp only [KBucket.add]
  split
  · exact ⟨rfl, by simpa [length_updateFirst] using h⟩
  · split
    · refine ⟨rfl, ?_⟩
      simp only [List.length_append, List.length_cons, List.length_nil]
      omega
    · split
      · split
        · refine ⟨rfl, ?_⟩
          simpa using h
        · exact ⟨rfl, h⟩
      · exact ⟨rfl, h⟩

/-- Folding `KBucket::add` never grows the bucket past its capacity. -/
lemma foldl_add_bound (inserts : List (Nat × RoutingEntry)) :
    ∀ bk : KBucket, bk.entries.length ≤ bk.capacity →
      (inserts.foldl (fun b p => (KBucket.add b p.1 p.2).1) bk).entries.length ≤
          (inserts.foldl (fun b p => (KBucket.add b p.1 p.2).1) bk).capacity ∧
        (inserts.foldl (fun b p => (KBucket.add b p.1 p.2).1) bk).capacity = bk.capacity := by
  induction inserts with
  | nil => intro bk h; exact ⟨h, rfl⟩
  | cons p rest ih =>
      intro bk h
      obtain ⟨hcap, hlen⟩ := add_invariant bk p.1 p.2 h
      have hrec := ih ((KBucket.add bk p.1 p.2).1) (by rw [hcap]; exact hlen)
      simp only [List.foldl_cons]
      exact ⟨hrec.1, by rw [hrec.2, hcap]⟩

/-- One bootstrap `add_node` keeps the 20-entry bound. -/
lemma bootstrapAddNode_length (bucket : List BootstrapEntry) (now : Nat)
    (nid : List Nat) (addr : Nat) (h : bucket.length ≤ 20) :
    (bootstrapAddNode bucket now nid addr).length ≤ 20 := by
  simp only [bootstrapAddNode]
  split
  · simpa [length_bootstrapUpdateFirst] using h
  · split
    · simp only [List.length_append, List.length_cons, List.length_nil]
      omega
    · exact h

lemma foldl_bootstrapAddNode_bound (inserts : List (Nat × List Nat × Nat)) :
    ∀ bucket : List BootstrapEntry, bucket.length ≤ 20 →
      (inserts.foldl (fun b p => bootstrapAddNode b p.1 p.2.1 p.2.2) bucket).length ≤ 20 := by
  induction inserts with
  | nil => intro bucket h; exact h
  | cons p rest ih =>
      intro bucket h
      simp only [List.foldl_cons]
      exact ih _ (bootstrapAddNode_length bucket p.1 p.2.1 p.2.2 h)

/-- C4 (amended): both routing tables keep k-buckets at ≤ 20 entries.  On a
full bucket and an unknown node, `grid/dht.rs::KBucket::add` replaces the
first least-recently-seen entry iff its `last_seen` age exceeds 300 s and
otherwise drops the new entry unchanged, while
`bootstrap/dht.rs::DhtNode::add_node` always drops the new entry. -/
theorem kbucket_overflow_policy :
    (∀ inserts : List (Nat × RoutingEntry),
        (inserts.foldl (fun b p => (KBucket.add b p.1 p.2).1) (KBucket.new 20)).entries.length
          ≤ 20) ∧
    (∀ (bk : KBucket) (now : Nat) (entry : RoutingEntry),
        (∀ e ∈ bk.entries, e.node_id ≠ entry.node_id) →
        ¬ bk.entries.length < bk.capacity → bk.entries ≠ [] →
        ∃ i v, isFirstMinLastSeen bk.entries i v ∧
          (300 < now - v →
            bk.add now entry = ({ bk with entries := bk.entries.set i entry }, true)) ∧
          (¬ 300 < now - v → bk.add now entry = (bk, false))) ∧
    (∀ inserts : List (Nat × List Nat × Nat),
        (inserts.foldl (fun b p => bootstrapAddNode b p.1 p.2.1 p.2.2) []).length ≤ 20) ∧
    (∀ (bucket : List BootstrapEntry) (now : Nat) (nid : List Nat) (addr : Nat),
        (∀ e ∈ bucket, e.node_id ≠ nid) → ¬ bucket.length < 20 →
        bootstrapAddNode bucket now nid addr = bucket) := by
  refine ⟨?_, ?_, ?_, ?_⟩
  · intro inserts
    have h := foldl_add_bound inserts (KBucket.new 20) (by simp [KBucket.new])
    exact le_of_le_of_eq h.1 (h.2.trans rfl)
  · intro bk now entry habs hfull hne
    have hany : bk.entries.any (fun e => e.node_id == entry.node_id) = false := by
      rw [List.any_eq_false]
      intro e he
      simp only [beq_iff_eq]
      exact habs e he
    obtain ⟨e0, rest0, hE⟩ := List.exists_cons_of_ne_nil hne
    have hsome : argminLastSeen bk.entries = some (firstMinCons e0 (firstMinPair rest0)) := by
      rw [argminLastSeen_eq, hE]
      rfl
    have hspec := firstMinPair_spec bk.entries _ (by rw [← argminLastSeen_eq]; exact hsome)
    refine ⟨(firstMinCons e0 (firstMinPair rest0)).1,
      (firstMinCons e0 (firstMinPair rest0)).2, hspec, ?_, ?_⟩
    · intro hage
      simp only [KBucket.add, hany, Bool.false_eq_true, if_false, if_neg hfull, hsome]
      rw [if_pos hage]
    · intro hage
      simp only [KBucket.add, hany, Bool.false_eq_true, if_false, if_neg hfull, hsome]
      rw [if_neg hage]
  · intro inserts
    exact foldl_bootstrapAddNode_bound inserts [] (by simp)
  · intro bucket now nid addr habs hfull
    have hany : bucket.any (fun e => e.node_id == nid) = false := by
      rw [List.any_eq_false]
      intro e he
      simp only [beq_iff_eq]
      exact habs e he
    simp only [bootstrapAddNode, hany, Bool.false_eq_true, if_false, if_neg hfull]

/-- Concrete instantiation of `kbucket_overflow_policy`: a bound instance,
a full grid bucket with a distinct incoming node, a bootstrap bound
instance, and a full bootstrap bucket with a distinct incoming node. -/
theorem kbucket_overflow_policy_witness :
    ((([(0, ({ node_id := [1], addr := 0, last_seen := 0, rtt_ms := none } : RoutingEntry))] :
          List (Nat × RoutingEntry)).foldl
        (fun b p => (KBucket.add b p.1 p.2).1) (KBucket.new 20)).entries.length ≤ 20) ∧
    ((∀ e ∈ ({ entries := [{ node_id := [1], addr := 0, last_seen := 50, rtt_ms := none },
                           { node_id := [2], addr := 0, last_seen := 10, rtt_ms := none }],
               capacity := 2 } : KBucket).entries,
        e.node_id ≠ ({ node_id := [3], addr := 0, last_seen := 400, rtt_ms := none } :
          RoutingEntry).node_id) ∧
      (∃ i v, isFirstMinLastSeen
          ({ entries := [{ node_id := [1], addr := 0, last_seen := 50, rtt_ms := none },
                         { node_id := [2], addr := 0, last_seen := 10, rtt_ms := none }],
             capacity := 2 } : KBucket).entries i v ∧
        (300 < 400 - v →
          KBucket.add
              { entries := [{ node_id := [1], addr := 0, last_seen := 50, rtt_ms := none },
                            { node_id := [2], addr := 0, last_seen := 10, rtt_ms := none }],
                capacity := 2 } 400
              { node_id := [3], addr := 0, last_seen := 400, rtt_ms := none } =
            ({ entries := ({ entries := [{ node_id := [1], addr := 0, last_seen := 50,
                                           rtt_ms := none },
                                         { node_id := [2], addr := 0, last_seen := 10,
                                           rtt_ms := none }],
                             capacity := 2 } : KBucket).entries.set i
                { node_id := [3], addr := 0, last_seen := 400, rtt_ms := none },
               capacity := 2 }, true)) ∧
        (¬ 300 < 400 - v →
          KBucket.add
              { entries := [{ node_id := [1], addr := 0, last_seen := 50, rtt_ms := none },
                            { node_id := [2], addr := 0, last_seen := 10, rtt_ms := none }],
                capacity := 2 } 400
              { node_id := [3], addr := 0, last_seen := 400, rtt_ms := none } =
            ({ entries := [{ node_id := [1], addr := 0, last_seen := 50, rtt_ms := none },
                           { node_id := [2], addr := 0, last_seen := 10, rtt_ms := none }],
               capacity := 2 }, false)))) ∧
    ((([] : List (Nat × List Nat × Nat)).foldl
        (fun b p => bootstrapAddNode b p.1 p.2.1 p.2.2) []).length ≤ 20) ∧
    ((∀ e ∈ (List.range 20).map
          (fun k => ({ node_id := [k], addr := 0, last_seen := 0 } : BootstrapEntry)),
        e.node_id ≠ [99]) ∧
      bootstrapAddNode
          ((List.range 20).map
            (fun k => ({ node_id := [k], addr := 0, last_seen := 0 } : BootstrapEntry)))
          1000 [99] 7 =
        (List.range 20).map
          (fun k => ({ node_id := [k], addr := 0, last_seen := 0 } : BootstrapEntry))) := by
  refine ⟨kbucket_overflow_policy.1 _, ⟨by decide, ?_⟩, kbucket_overflow_policy.2.2.1 _,
    ⟨by decide, ?_⟩⟩
  · exact kbucket_overflow_policy.2.1 _ 400 _ (by decide) (by decide) (by decide)
  · exact kbucket_overflow_policy.2.2.2 _ 1000 [99] 7 (by decide) (by decide)

/-- C4 as literally stated is false for the bootstrap routing table: a full
20-entry bucket whose every (hence the least-recently-seen) entry is 1000 s
old still drops an unknown incoming node instead of replacing the
least-recently-seen entry. -/
theorem kbucket_overflow_policy_counterexample :
    (((List.range 20).map
        (fun k => ({ node_id := [k], addr := 0, last_seen := 0 } : BootstrapEntry))).length
        = 20) ∧
    (∀ e ∈ (List.range 20).map
        (fun k => ({ node_id := [k], addr := 0, last_seen := 0 } : BootstrapEntry)),
      e.node_id ≠ [99] ∧ 300 < 1000 - e.last_seen) ∧
    bootstrapAddNode
        ((List.range 20).map
          (fun k => ({ node_id := [k], addr := 0, last_seen := 0 } : BootstrapEntry)))
        1000 [99] 7 =
      (List.range 20).map
        (fun k => ({ node_id := [k], addr := 0, last_seen := 0 } : BootstrapEntry)) := by
  decide

/-! ## Multi-stream block acknowledgement (`transfer/multistream.rs`)

Only the control flow around the 4-byte BACK wait matters here; the QUIC
setup and write steps are collapsed into one `setupOk` flag, and the
30-second `tokio::time::timeout(.., read_exact)` outcome is an explicit
`AckOutcome`. -/

/-- Outcome of the 30 s `timeout(read_exact(ack))` wait. -/
inductive AckOutcome
  | received (ack : List Nat)
  | readError
  | timeout
deriving DecidableEq, Repr

/-- The ASCII bytes of the `BACK` marker. -/
def backMagic : List Nat := [66, 65, 67, 75]

/-- `MultiStreamSender::send_block_zerocopy`: after the setup and writes,
the ACK wait only logs — the `BACK` branch does nothing and the catch-all
branch only warns — and the function returns `Ok(block.size)` on every ACK
outcome. -/
def send_block_zerocopy (setupOk : Bool) (ack : AckOutcome) (blockSize : Nat) :
    Except String Nat :=
  if !setupOk then .error "stream setup or write failed"
  else
    match ack with
    | .received bytes => if bytes = backMagic then .ok blockSize else .ok blockSize
    | .readError => .ok blockSize
    | .timeout => .ok blockSize

/-- The caller in `send_file`: `if let Ok(sent_size) = result` adds
`sent_size` to the shared `bytes_acknowledged` counter (reported as
`acknowledged_bytes` in `MultiStreamProgress`). -/
def ackedBytesDelta (result : Except String Nat) : Nat :=
  match result with
  | .ok sent_size => sent_size
  | .error _ => 0

/-- C2: a block whose BACK acknowledgement times out (or whose ACK read
fails) still yields `Ok(block.size)`, so the caller adds the full block
size to `acknowledged_bytes` — exactly as in the acknowledged case. -/
theorem acknowledged_without_back_bug :
    send_block_zerocopy true .timeout 1024 = .ok 1024 ∧
      ackedBytesDelta (send_block_zerocopy true .timeout 1024) = 1024 ∧
      ackedBytesDelta (send_block_zerocopy true .readError 1024) = 1024 ∧
      ackedBytesDelta (send_block_zerocopy true (.received backMagic) 1024) = 1024 :=
  ⟨rfl, rfl, rfl, rfl⟩

/-! ## Piece manager (`grid/piece_manager.rs`)

SHA-256 is an external library call; it enters the model as an abstract
function parameter `sha256`.  File I/O outcomes are collapsed into one
`ioOk` flag; all filesystem failures happen before `mark_completed`, which
is the only state change.  The Rust length comparison is
`data.len() as u32 != piece.length`, hence the `% 2^32`. -/

structure PieceInfo where
  index : Nat
  offset : Nat
  length : Nat
  hash : List Nat
deriving DecidableEq, Repr

structure PieceManager where
  file_size : Nat
  pieces : List PieceInfo
  my_bitfield : Bitfield
  save_path_set : Bool
deriving DecidableEq, Repr

/-- `PieceManager::verify_piece`. -/
def verify_piece (sha256 : List Nat → List Nat) (pm : PieceManager) (index : Nat)
    (data : List Nat) : Bool :=
  match pm.pieces[index]? with
  | none => false
  | some piece =>
      if data.length % 2 ^ 32 ≠ piece.length then false
      else if sha256 data ≠ piece.hash then false
      else true

/-- `PieceManager::write_piece`, returning the `Result` and the post-state:
index lookup, length check, hash verification and the save-path check all
fail before any state change; only a fully successful verified write marks
the bitfield (`mark_completed`). -/
def write_piece (sha256 : List Nat → List Nat) (pm : PieceManager) (index : Nat)
    (data : List Nat) (ioOk : Bool) : Except String Unit × PieceManager :=
  match pm.pieces[index]? with
  | none => (.error "Invalid piece index", pm)
  | some piece =>
      if data.length % 2 ^ 32 ≠ piece.length then (.error "length mismatch", pm)
      else if ¬ verify_piece sha256 pm index data then
        (.error "hash verification failed", pm)
      else if ¬ pm.save_path_set then (.error "Save path not set", pm)
      else if ¬ ioOk then (.error "file io failed", pm)
      else (.ok (), { pm with my_bitfield := pm.my_bitfield.mark index })

/-- C7: for a valid piece index, `write_piece` errors whenever the hash does
not match or the (u32-ranged) length differs, returning the manager
unchanged; and in every case the state is either unchanged or the result is
a verified success that marks exactly bit `index`. -/
theorem write_piece_rejects_unverified (sha256 : List Nat → List Nat)
    (pm : PieceManager) (index : Nat) (data : List Nat) (ioOk : Bool)
    (piece : PieceInfo) (hp : pm.pieces[index]? = some piece) :
    ((sha256 data ≠ piece.hash →
        ∃ e, write_piece sha256 pm index data ioOk = (.error e, pm)) ∧
      (data.length < 2 ^ 32 → data.length ≠ piece.length →
        ∃ e, write_piece sha256 pm index data ioOk = (.error e, pm))) ∧
    ((write_piece sha256 pm index data ioOk).2 = pm ∨
      ((write_piece sha256 pm index data ioOk).1 = .ok () ∧
        verify_piece sha256 pm index data = true ∧
        (write_piece sha256 pm index data ioOk).2 =
          { pm with my_bitfield := pm.my_bitfield.mark index })) := by
  constructor
  · constructor
    · intro hhash
      by_cases heq : data.length % 2 ^ 32 = piece.length
      · have heq' : data.length % 4294967296 = piece.length := heq
        refine ⟨"hash verification failed", ?_⟩
        have hver : verify_piece sha256 pm index data = false := by
          simp [verify_piece, hp, heq', hhash]
        simp [write_piece, hp, heq', hver]
      · have heq' : ¬ data.length % 4294967296 = piece.length := heq
        exact ⟨"length mismatch", by simp [write_piece, hp, heq']⟩
    · intro hd32 hlen
      have hne : ¬ data.length % 4294967296 = piece.length := by
        rw [show (4294967296 : Nat) = 2 ^ 32 from rfl, Nat.mod_eq_of_lt hd32]
        exact hlen
      exact ⟨"length mismatch", by simp [write_piece, hp, hne]⟩
  · by_cases heq : data.length % 2 ^ 32 = piece.length
    · have heq' : data.length % 4294967296 = piece.length := heq
      by_cases hver : verify_piece sha256 pm index data = true
      · by_cases hpath : pm.save_path_set = true
        · by_cases hio : ioOk = true
          · right
            refine ⟨?_, hver, ?_⟩ <;> simp [write_piece, hp, heq', hver, hpath, hio]
          · left
            simp [write_piece, hp, heq', hver, hpath, hio]
        · left
          simp [write_piece, hp, heq', hver, hpath]
      · left
        simp [write_piece, hp, heq', hver]
    · have heq' : ¬ data.length % 4294967296 = piece.length := heq
      left
      simp [write_piece, hp, heq']

/-- Concrete instantiation of `write_piece_rejects_unverified`: one piece of
length 3 with hash `[5]`, a two-byte write with a non-matching hash. -/
theorem write_piece_rejects_unverified_witness :
    (({ file_size := 3, pieces := [{ index := 0, offset := 0, length := 3, hash := [5] }],
        my_bitfield := Bitfield.new 1, save_path_set := true } :
          PieceManager).pieces.get? 0 =
        some { index := 0, offset := 0, length := 3, hash := [5] }) ∧
    (((fun l : List Nat => [l.length]) [1, 2] ≠ [5] →
        ∃ e, write_piece (fun l : List Nat => [l.length])
            { file_size := 3, pieces := [{ index := 0, offset := 0, length := 3, hash := [5] }],
              my_bitfield := Bitfield.new 1, save_path_set := true } 0 [1, 2] true =
          (.error e,
            { file_size := 3, pieces := [{ index := 0, offset := 0, length := 3, hash := [5] }],
              my_bitfield := Bitfield.new 1, save_path_set := true })) ∧
      (([1, 2] : List Nat).length < 2 ^ 32 → ([1, 2] : List Nat).length ≠ 3 →
        ∃ e, write_piece (fun l : List Nat => [l.length])
            { file_size := 3, pieces := [{ index := 0, offset := 0, length := 3, hash := [5] }],
              my_bitfield := Bitfield.new 1, save_path_set := true } 0 [1, 2] true =
          (.error e,
            { file_size := 3, pieces := [{ index := 0, offset := 0, length := 3, hash := [5] }],
              my_bitfield := Bitfield.new 1, save_path_set := true }))) ∧
    ((write_piece (fun l : List Nat => [l.length])
          { file_size := 3, pieces := [{ index := 0, offset := 0, length := 3, hash := [5] }],
            my_bitfield := Bitfield.new 1, save_path_set := true } 0 [1, 2] true).2 =
        { file_size := 3, pieces := [{ index := 0, offset := 0, length := 3, hash := [5] }],
          my_bitfield := Bitfield.new 1, save_path_set := true } ∨
      ((write_piece (fun l : List Nat => [l.length])
            { file_size := 3, pieces := [{ index := 0, offset := 0, length := 3, hash := [5] }],
              my_bitfield := Bitfield.new 1, save_path_set := true } 0 [1, 2] true).1 = .ok () ∧
        verify_piece (fun l : List Nat => [l.length])
            { file_size := 3, pieces := [{ index := 0, offset := 0, length := 3, hash := [5] }],
              my_bitfield := Bitfield.new 1, save_path_set := true } 0 [1, 2] = true ∧
        (write_piece (fun l : List Nat => [l.length])
            { file_size := 3, pieces := [{ index := 0, offset := 0, length := 3, hash := [5] }],
              my_bitfield := Bitfield.new 1, save_path_set := true } 0 [1, 2] true).2 =
          { file_size := 3, pieces := [{ index := 0, offset := 0, length := 3, hash := [5] }],
            my_bitfield := (Bitfield.new 1).mark 0, save_path_set := true })) :=
  ⟨rfl,
    write_piece_rejects_unverified (fun l : List Nat => [l.length]) _ 0 [1, 2] true
      { index := 0, offset := 0, length := 3, hash := [5] } rfl⟩

/-! ## Block splitting (`transfer/zero_copy_io.rs`)

`split_file_into_blocks` works in `u64` and casts the block count and block
sizes to `u32`; both casts truncate, modelled by explicit `% 2^w`. -/

/-- Truncation to `u64`. -/
def wrap64 (n : Nat) : Nat := n % 2 ^ 64

/-- Truncation to `u32` (an `as u32` cast). -/
def wrap32 (n : Nat) : Nat := n % 2 ^ 32

/-- Wrapping `u64` subtraction (for arguments below `2^64`). -/
def sub64 (a b : Nat) : Nat := (a + 2 ^ 64 - b) % 2 ^ 64

/-- `BlockInfo` of `transfer/zero_copy_io.rs`. -/
structure BlockInfo where
  index : Nat
  offset : Nat
  size : Nat
  total_blocks : Nat
deriving DecidableEq, Repr

/-- `split_file_into_blocks(file_size, block_size)`:
`total_blocks = ((file_size + block_size - 1) / block_size) as u32`, then one
`BlockInfo` per `i` with `offset = i as u64 * block_size` and
`size = min(block_size, file_size - offset) as u32`. -/
def split_file_into_blocks (file_size block_size : Nat) : List BlockInfo :=
  let total_blocks := wrap32 (sub64 (wrap64 (file_size + block_size)) 1 / block_size)
  (List.range total_blocks).map (fun i =>
    let offset := wrap64 (i * block_size)
    let size := wrap32 (min block_size (sub64 file_size offset))
    { index := i, offset := offset, size := size, total_blocks := total_blocks })

example :
    (split_file_into_blocks 10 4).map (fun b => (b.offset, b.size)) =
      [(0, 4), (4, 4), (8, 2)] := by decide

/-- C10 as literally stated is false: at `file_size = 2^32`, `block_size = 1`
the `as u32` cast of the block count truncates `2^32` to 0, so no blocks are
returned instead of `⌈file_size / block_size⌉ = 2^32`. -/
theorem split_file_into_blocks_counterexample :
    split_file_into_blocks (2 ^ 32) 1 = [] ∧
      ((2 ^ 32 : Nat) + 1 - 1) / 1 = 2 ^ 32 ∧ (2 ^ 32 : Nat) ≠ 0 := by
  refine ⟨?_, by decide, by decide⟩
  decide

/-- C10 (amended): when the ceiling count fits in `u32`, block sizes fit in
`u32` and the `u64` ceiling numerator does not overflow, the blocks tile the
file exactly: `⌈fs/bs⌉` (= `(fs + bs - 1) / bs`) blocks, block `i` at offset
`i·bs`, every block of size `bs` except the last of size `fs − offset`, and
the sizes summing to `fs`. -/
theorem split_file_into_blocks_tiling (fs bs : Nat) (hfs : 0 < fs) (hbs : 0 < bs)
    (hov : fs + bs - 1 < 2 ^ 64) (hcnt : (fs + bs - 1) / bs < 2 ^ 32)
    (hsz : min bs fs < 2 ^ 32) :
    (split_file_into_blocks fs bs).length = (fs + bs - 1) / bs ∧
    (∀ i, (hi : i < (split_file_into_blocks fs bs).length) →
      ((split_file_into_blocks fs bs).get ⟨i, hi⟩).index = i ∧
      ((split_file_into_blocks fs bs).get ⟨i, hi⟩).offset = i * bs ∧
      ((split_file_into_blocks fs bs).get ⟨i, hi⟩).total_blocks = (fs + bs - 1) / bs ∧
      ((split_file_into_blocks fs bs).get ⟨i, hi⟩).size = min bs (fs - i * bs) ∧
      (i < (fs + bs - 1) / bs - 1 →
        ((split_file_into_blocks fs bs).get ⟨i, hi⟩).size = bs) ∧
      (i = (fs + bs - 1) / bs - 1 →
        ((split_file_into_blocks fs bs).get ⟨i, hi⟩).size = fs - i * bs)) ∧
    ((split_file_into_blocks fs bs).map (fun b => b.size)).sum = fs := by
  have hdm := Nat.div_add_mod (fs + bs - 1) bs
  have hmlt := Nat.mod_lt (fs + bs - 1) hbs
  have ht1 : 1 ≤ (fs + bs - 1) / bs := by
    rw [Nat.le_div_iff_mul_le hbs]
    omega
  have hmulsub : bs * ((fs + bs - 1) / bs - 1) + bs = bs * ((fs + bs - 1) / bs) := by
    rw [← Nat.mul_succ]
    congr 1
    omega
  -- bounds of the ceiling count against fs (products kept as atoms)
  have hF1 : fs ≤ bs * ((fs + bs - 1) / bs) := by omega
  have hF2 : bs * ((fs + bs - 1) / bs - 1) < fs := by omega
  have hT : wrap32 (sub64 (wrap64 (fs + bs)) 1 / bs) = (fs + bs - 1) / bs := by
    simp only [wrap32, sub64, wrap64]
    have h1 : ((fs + bs) % 2 ^ 64 + 2 ^ 64 - 1) % 2 ^ 64 = fs + bs - 1 := by omega
    rw [h1]
    omega
  have hlen : (split_file_into_blocks fs bs).length = (fs + bs - 1) / bs := by
    simp [split_file_into_blocks, hT]
  -- per-index arithmetic facts
  have hfacts : ∀ i, i < (fs + bs - 1) / bs →
      wrap64 (i * bs) = i * bs ∧ sub64 fs (i * bs) = fs - i * bs ∧
        wrap32 (min bs (fs - i * bs)) = min bs (fs - i * bs) := by
    intro i hilt
    have hib : i * bs ≤ ((fs + bs - 1) / bs - 1) * bs :=
      Nat.mul_le_mul_right bs (by omega)
    have hcomm : ((fs + bs - 1) / bs - 1) * bs = bs * ((fs + bs - 1) / bs - 1) :=
      Nat.mul_comm _ _
    have hibfs : i * bs < fs := by omega
    refine ⟨?_, ?_, ?_⟩
    · simp only [wrap64]
      omega
    · simp only [sub64]
      omega
    · simp only [wrap32]
      omega
  refine ⟨hlen, ?_, ?_⟩
  · intro i hi
    have hilt : i < (fs + bs - 1) / bs := by rw [← hlen]; exact hi
    obtain ⟨hw64, hs64, hw32⟩ := hfacts i hilt
    have hget : (split_file_into_blocks fs bs).get ⟨i, hi⟩ =
        { index := i, offset := wrap64 (i * bs),
          size := wrap32 (min bs (sub64 fs (wrap64 (i * bs)))),
          total_blocks := wrap32 (sub64 (wrap64 (fs + bs)) 1 / bs) } := by
      simp [split_file_into_blocks, List.get_eq_getElem, List.getElem_map,
        List.getElem_range]
    rw [hget]
    refine ⟨rfl, hw64, hT, ?_, ?_, ?_⟩
    · rw [hw64, hs64, hw32]
    · intro hlast
      rw [hw64, hs64, hw32]
      have hsucc : (i + 1) * bs ≤ ((fs + bs - 1) / bs - 1) * bs :=
        Nat.mul_le_mul_right bs (by omega)
      have h1 : (i + 1) * bs = i * bs + bs := Nat.succ_mul i bs
      have hcomm : ((fs + bs - 1) / bs - 1) * bs = bs * ((fs + bs - 1) / bs - 1) :=
        Nat.mul_comm _ _
      have hmin : min bs (fs - i * bs) = bs := by omega
      exact hmin
    · intro hlast
      subst hlast
      rw [hw64, hs64, hw32]
      have hcomm : ((fs + bs - 1) / bs - 1) * bs = bs * ((fs + bs - 1) / bs - 1) :=
        Nat.mul_comm _ _
      have hmin : min bs (fs - ((fs + bs - 1) / bs - 1) * bs) =
          fs - ((fs + bs - 1) / bs - 1) * bs := by omega
      exact hmin
  · -- the sizes sum to fs
    have hmapped : (split_file_into_blocks fs bs).map (fun b => b.size) =
        (List.range ((fs + bs - 1) / bs)).map (fun i => min bs (fs - i * bs)) := by
      simp only [split_file_into_blocks, hT, List.map_map]
      refine List.map_congr_left ?_
      intro i hilt
      rw [List.mem_range] at hilt
      obtain ⟨hw64, hs64, hw32⟩ := hfacts i hilt
      simp only [Function.comp]
      rw [hw64, hs64, hw32]
    rw [hmapped]
    have hsplit : List.range ((fs + bs - 1) / bs) =
        List.range ((fs + bs - 1) / bs - 1) ++ [(fs + bs - 1) / bs - 1] := by
      conv_lhs => rw [show (fs + bs - 1) / bs = ((fs + bs - 1) / bs - 1) + 1 by omega]
      exact List.range_succ _
    rw [hsplit, List.map_append, List.sum_append]
    have hconst : (List.range ((fs + bs - 1) / bs - 1)).map (fun i => min bs (fs - i * bs)) =
        (List.range ((fs + bs - 1) / bs - 1)).map (fun _ => bs) := by
      refine List.map_congr_left ?_
      intro i hilt
      rw [List.mem_range] at hilt
      have hsucc : (i + 1) * bs ≤ ((fs + bs - 1) / bs - 1) * bs :=
        Nat.mul_le_mul_right bs (by omega)
      have h1 : (i + 1) * bs = i * bs + bs := Nat.succ_mul i bs
      have hcomm : ((fs + bs - 1) / bs - 1) * bs = bs * ((fs + bs - 1) / bs - 1) :=
        Nat.mul_comm _ _
      omega
    rw [hconst]
    have hrep : (List.range ((fs + bs - 1) / bs - 1)).map (fun _ => bs) =
        List.replicate ((fs + bs - 1) / bs - 1) bs := by
      simp
    rw [hrep]
    simp only [List.map_cons, List.map_nil, List.sum_cons, List.sum_nil, List.sum_replicate,
      smul_eq_mul]
    have hcomm : ((fs + bs - 1) / bs - 1) * bs = bs * ((fs + bs - 1) / bs - 1) :=
      Nat.mul_comm _ _
    omega

/-- Concrete instantiation of `split_file_into_blocks_tiling` at
`file_size = 10`, `block_size = 4` (3 blocks: 4 + 4 + 2). -/
theorem split_file_into_blocks_tiling_witness :
    ((0 : Nat) < 10 ∧ (0 : Nat) < 4 ∧ (10 : Nat) + 4 - 1 < 2 ^ 64 ∧
      ((10 : Nat) + 4 - 1) / 4 < 2 ^ 32 ∧ min (4 : Nat) 10 < 2 ^ 32) ∧
    ((split_file_into_blocks 10 4).length = (10 + 4 - 1) / 4 ∧
      (∀ i, (hi : i < (split_file_into_blocks 10 4).length) →
        ((split_file_into_blocks 10 4).get ⟨i, hi⟩).index = i ∧
        ((split_file_into_blocks 10 4).get ⟨i, hi⟩).offset = i * 4 ∧
        ((split_file_into_blocks 10 4).get ⟨i, hi⟩).total_blocks = (10 + 4 - 1) / 4 ∧
        ((split_file_into_blocks 10 4).get ⟨i, hi⟩).size = min 4 (10 - i * 4) ∧
        (i < (10 + 4 - 1) / 4 - 1 → ((split_file_into_blocks 10 4).get ⟨i, hi⟩).size = 4) ∧
        (i = (10 + 4 - 1) / 4 - 1 →
          ((split_file_into_blocks 10 4).get ⟨i, hi⟩).size = 10 - i * 4)) ∧
      ((split_file_into_blocks 10 4).map (fun b => b.size)).sum = 10) :=
  ⟨⟨by decide, by decide, by decide, by decide, by decide⟩,
    split_file_into_blocks_tiling 10 4 (by decide) (by decide) (by decide) (by decide)
      (by decide)⟩

end Ponswarp
